import Mathlib

/-!
Verification development for the crypto OHLCV ingestion/storage pipeline.

Shallow embedding of the Python sources:
  - src/src/data/warehouse/duckdb_manager.py  (DuckDBManager)
  - src/src/data/warehouse/parquet_manager.py (ParquetManager)
  - src/src/data/connectors/binance.py, coinbase.py (connectors)
  - src/src/data/stream/binance_ws.py (BinanceWebSocket)
  - src/scripts/backfill.py (backfill_data, BackfillCheckpoint)

Machine timestamps are modelled as `Int` seconds (the DuckDB TIMESTAMP
values relevant to the claims are at second granularity); monetary
quantities as `ℚ` (DuckDB DECIMAL and python floats evaluated only at
exactly representable inputs); fallible code returns `Except`.
-/

namespace Quant

/-- One row of the `ohlcv_raw` table / one canonical candle record.
Mirrors the required DataFrame columns of `DuckDBManager.insert_ohlcv`
(exchange, symbol, timeframe, timestamp, open, high, low, close, volume).
The python `open` column is named `open_` because `open` is a Lean keyword. -/
structure Row where
  exchange : String
  symbol : String
  timeframe : String
  timestamp : Int
  open_ : ℚ
  high : ℚ
  low : ℚ
  close : ℚ
  volume : ℚ
deriving DecidableEq, Repr

/-- The primary key of `ohlcv_raw`: (exchange, symbol, timeframe, timestamp). -/
abbrev RowKey := String × String × String × Int

/-- Key extraction matching the PRIMARY KEY of `ohlcv_raw`. -/
def keyOf (r : Row) : RowKey := (r.exchange, r.symbol, r.timeframe, r.timestamp)

/-- Embeds `DuckDBManager._timeframe_to_seconds`:
`int(timeframe[:-1]) * multipliers.get(timeframe[-1], 60)` — the numeric
prefix of the timeframe string times a unit multiplier, the multiplier
defaulting to 60 for an unknown unit character.  The decimal parse is
written over the character list; python raises on a non-digit prefix, the
model is only evaluated on digit prefixes. -/
def timeframe_to_seconds (timeframe : String) : Int :=
  let cs := timeframe.toList
  let value : Int := (cs.dropLast.foldl (fun acc c => acc * 10 + (c.toNat - 48)) 0 : Nat)
  let unit := cs.getLastD ' '
  let mult : Int :=
    if unit = 'm' then 60
    else if unit = 'h' then 3600
    else if unit = 'd' then 86400
    else if unit = 'w' then 604800
    else 60
  value * mult

/-- One output row of `DuckDBManager.detect_gaps`.  `missing_candles` is the
DuckDB expression `gap_seconds / timeframe_seconds`, which in DuckDB is
float division of the two integers; it is modelled exactly as a rational. -/
structure Gap where
  gap_start : Int
  gap_end : Int
  gap_seconds : Int
  missing_candles : ℚ
deriving DecidableEq, Repr

/-- Insert a value into an ascending list, keeping it ascending. -/
def insertSorted (x : Int) : List Int → List Int
  | [] => [x]
  | y :: ys => if x ≤ y then x :: y :: ys else y :: insertSorted x ys

/-- Ascending insertion sort — the embedding of SQL `ORDER BY timestamp`. -/
def sortAsc (l : List Int) : List Int := l.foldr insertSorted []

/-- The timestamps of the rows of `store` matching one
(exchange, symbol, timeframe) key, ordered ascending — the window
`LEAD(timestamp) OVER (ORDER BY timestamp)` of the gap query. -/
def gapTimestamps (store : List Row) (exchange symbol timeframe : String) : List Int :=
  sortAsc ((store.filter fun r =>
      r.exchange == exchange && r.symbol == symbol && r.timeframe == timeframe).map
    Row.timestamp)

/-- Consecutive pairs of a list: `zip` with its own tail.  The last row of
the SQL window has a NULL `LEAD` and is dropped by the NULL comparison. -/
def consecPairs (l : List Int) : List (Int × Int) := l.zip l.tail

/-- Embeds `DuckDBManager.detect_gaps`: consecutive timestamp deltas of one
key; a pair is kept when `gap_seconds > timeframe_seconds * 1.5` and is
annotated with `missing_candles = gap_seconds / timeframe_seconds`. -/
def detect_gaps (store : List Row) (symbol timeframe : String)
    (exchange : String) : List Gap :=
  let tfSec := timeframe_to_seconds timeframe
  ((consecPairs (gapTimestamps store exchange symbol timeframe)).filter fun p =>
      decide ((tfSec : ℚ) * 1.5 < ((p.2 - p.1 : Int) : ℚ))).map fun p =>
    { gap_start := p.1
      gap_end := p.2
      gap_seconds := p.2 - p.1
      missing_candles := ((p.2 - p.1 : Int) : ℚ) / (tfSec : ℚ) }

/-- Worker for `dedupKeepFirst`: keep a row when its key has not been seen
yet (pandas `drop_duplicates(subset=key, keep="first")`). -/
def dedupGo (seen : List RowKey) : List Row → List Row
  | [] => []
  | r :: rest =>
    if keyOf r ∈ seen then dedupGo seen rest
    else r :: dedupGo (keyOf r :: seen) rest

/-- Embeds the in-memory deduplication of `insert_ohlcv`:
`df.drop_duplicates(subset=["exchange","symbol","timeframe","timestamp"], keep="first")`. -/
def dedupKeepFirst (df : List Row) : List Row := dedupGo [] df

/-- One `INSERT OR REPLACE` of a single row keyed by `k`: when the key is
already present every row carrying it is overwritten in place, otherwise
the row is appended. -/
def upsertBy (k : α → κ) [DecidableEq κ] (t : List α) (x : α) : List α :=
  if t.any (fun y => k y = k x) then t.map (fun y => if k y = k x then x else y)
  else t ++ [x]

/-- One `INSERT OR IGNORE` of a single row keyed by `k`: skipped when the
key is already present. -/
def ignoreBy (k : α → κ) [DecidableEq κ] (t : List α) (x : α) : List α :=
  if t.any (fun y => k y = k x) then t else t ++ [x]

/-- `INSERT OR REPLACE INTO … SELECT * FROM df_insert`, row by row. -/
def applyReplaceAll (k : α → κ) [DecidableEq κ] (t : List α) (xs : List α) : List α :=
  xs.foldl (upsertBy k) t

/-- `INSERT OR IGNORE INTO … SELECT * FROM df_insert`, row by row. -/
def applyIgnoreAll (k : α → κ) [DecidableEq κ] (t : List α) (xs : List α) : List α :=
  xs.foldl (ignoreBy k) t

/-- The insert statement of `insert_ohlcv`, selected by `replace_duplicates`. -/
def applyInsert (t : List Row) (xs : List Row) (replace_duplicates : Bool) : List Row :=
  if replace_duplicates then applyReplaceAll keyOf t xs else applyIgnoreAll keyOf t xs

/-- One row of the `data_quality_metadata` table, restricted to the columns
written by `_update_metadata` (its `last_validation` wall-clock column is
not modelled). -/
structure MetaRow where
  exchange : String
  symbol : String
  timeframe : String
  first_timestamp : Int
  last_timestamp : Int
  total_records : Nat
deriving DecidableEq, Repr

/-- The primary key of `data_quality_metadata`. -/
abbrev MetaKey := String × String × String

/-- Key extraction for `data_quality_metadata`. -/
def metaKey (m : MetaRow) : MetaKey := (m.exchange, m.symbol, m.timeframe)

/-- The (exchange, symbol, timeframe) group key of an OHLCV row. -/
def groupKeyOf (r : Row) : MetaKey := (r.exchange, r.symbol, r.timeframe)

/-- Worker for `groupKeys`. -/
def groupKeysGo (seen : List MetaKey) : List Row → List MetaKey
  | [] => []
  | r :: rest =>
    if groupKeyOf r ∈ seen then groupKeysGo seen rest
    else groupKeyOf r :: groupKeysGo (groupKeyOf r :: seen) rest

/-- The distinct (exchange, symbol, timeframe) keys of a batch — the group
keys of `df.groupby(["exchange","symbol","timeframe"])` in
`_update_metadata`, in order of first appearance.  (pandas sorts the group
keys lexicographically; no theorem below depends on the order.) -/
def groupKeys (df : List Row) : List MetaKey := groupKeysGo [] df

/-- The rows of a batch belonging to one group key. -/
def groupRows (df : List Row) (k : MetaKey) : List Row :=
  df.filter fun r => decide (groupKeyOf r = k)

/-- The metadata row `_update_metadata` writes for one group: min and max
timestamp and row count of the group of the *inserted batch* (not of the
whole stored table). -/
def metaRowFor (k : MetaKey) (rows : List Row) : MetaRow :=
  { exchange := k.1
    symbol := k.2.1
    timeframe := k.2.2
    first_timestamp := ((rows.map Row.timestamp).min?).getD 0
    last_timestamp := ((rows.map Row.timestamp).max?).getD 0
    total_records := rows.length }

/-- Embeds `DuckDBManager._update_metadata`: iterate the batch groups and
`INSERT OR REPLACE` one metadata row per group.  The whole loop sits in a
`try/except` that only logs, so a statement failure at group `i` (modelled
by `failIdx = some i`) silently stops the loop after the first `i` groups
and does not abort the enclosing transaction. -/
def update_metadata (md : List MetaRow) (df : List Row) (failIdx : Option Nat) :
    List MetaRow :=
  let ks := groupKeys df
  let applied := match failIdx with
    | none => ks
    | some i => ks.take i
  applied.foldl (fun m k => upsertBy metaKey m (metaRowFor k (groupRows df k))) md

/-- The durable database state: the `ohlcv_raw` table and the
`data_quality_metadata` table. -/
structure DB where
  ohlcv : List Row
  meta : List MetaRow
deriving DecidableEq, Repr

/-- Failure injection points inside the `insert_ohlcv` transaction: no
failure, the insert statement raising, the metadata statement of group `i`
raising (swallowed by `_update_metadata`), or `COMMIT` raising. -/
inductive InsertFail where
  | noFail
  | atInsert
  | atMeta (i : Nat)
  | atCommit
deriving DecidableEq, Repr

/-- The metadata failure index carried by an `InsertFail`. -/
def InsertFail.metaIdx : InsertFail → Option Nat
  | .atMeta i => some i
  | _ => none

/-- Everything `insert_ohlcv` leaves behind: the committed database, the
python return value or propagated exception, and the sequence of SQL
statements issued on the connection (empty when the empty-batch early
return fires before any statement). -/
structure InsertResult where
  db : DB
  res : Except String Nat
  stmts : List String
deriving Repr

/-- Embeds `DuckDBManager.insert_ohlcv`.  The empty batch returns 0 before
touching the connection.  Otherwise the batch is key-deduplicated in
memory, a transaction is begun on a staged copy of the committed state,
the insert statement and the (failure-swallowing) metadata update run
against the stage, and `COMMIT` publishes the stage; any raise inside the
`try` triggers `ROLLBACK`, which discards the stage and re-raises, leaving
the committed state untouched.  The return value on success is
`len(df_insert)` — the deduplicated batch size, independent of how many
stored rows actually changed. -/
def insert_ohlcv (db : DB) (df : List Row) (replace_duplicates : Bool)
    (fail : InsertFail) : InsertResult :=
  if df.isEmpty then ⟨db, Except.ok 0, []⟩
  else
    let df_insert := dedupKeepFirst df
    let insStmt :=
      if replace_duplicates then "INSERT OR REPLACE INTO ohlcv_raw"
      else "INSERT OR IGNORE INTO ohlcv_raw"
    match fail with
    | InsertFail.atInsert =>
      ⟨db, Except.error "insert failed", ["BEGIN TRANSACTION", insStmt, "ROLLBACK"]⟩
    | f =>
      let txn1 : DB := { db with ohlcv := applyInsert db.ohlcv df_insert replace_duplicates }
      let txn2 : DB := { txn1 with meta := update_metadata txn1.meta df_insert f.metaIdx }
      let metaStmts := (match f.metaIdx with
        | none => groupKeys df_insert
        | some i => (groupKeys df_insert).take i).map
          (fun _ => "INSERT OR REPLACE INTO data_quality_metadata")
      match f with
      | InsertFail.atCommit =>
        ⟨db, Except.error "commit failed",
          "BEGIN TRANSACTION" :: insStmt :: metaStmts ++ ["ROLLBACK"]⟩
      | _ =>
        ⟨txn2, Except.ok df_insert.length,
          "BEGIN TRANSACTION" :: insStmt :: metaStmts ++ ["COMMIT"]⟩

/-- Lookup in the metadata table by primary key (first matching row). -/
def findMeta (md : List MetaRow) (k : MetaKey) : Option MetaRow :=
  md.find? fun m => decide (metaKey m = k)

/-- A persisted backfill checkpoint.  Of the fields written by
`BackfillCheckpoint.save` only `last_timestamp` and `total_records` are
modelled; `exchange/symbol/timeframe` name the checkpoint file (one key is
modelled) and `saved_at` is wall clock. -/
structure Ckpt where
  last_timestamp : Int
  total_records : Nat
deriving DecidableEq, Repr

/-- Checkpoint-store operations performed during one `backfill_data` run. -/
inductive CkptEvent where
  | save (last_timestamp : Int) (total_records : Nat)
  | delete
deriving DecidableEq, Repr

/-- How a `backfill_data` run ended: the full success path, one of the two
empty-frame early returns, or an exception caught at the pipeline
boundary. -/
inductive BackfillOutcome where
  | completed
  | noData
  | failed
deriving DecidableEq, Repr

/-- Failure injection for `backfill_data`: which step of its `try` block
raises (the connector fetch, the store insert, the parquet export, the
integrity validation, or the coverage query). -/
inductive BackfillFail where
  | ok
  | fetchRaises
  | insertRaises
  | parquetRaises
  | validationRaises
  | coverageRaises
deriving DecidableEq, Repr

/-- The observable result of one `backfill_data` run. -/
structure BackfillResult where
  startUsed : Int
  db : DB
  ckpt : Option Ckpt
  events : List CkptEvent
  outcome : BackfillOutcome
deriving Repr

/-- The row filter applied by `backfill.py` when validation reports
errors: the six OHLC/volume conditions of lines 147–154. -/
def validRow (r : Row) : Bool :=
  decide (r.low ≤ r.high) && decide (r.open_ ≤ r.high) && decide (r.close ≤ r.high) &&
    decide (r.low ≤ r.open_) && decide (r.low ≤ r.close) && decide (0 ≤ r.volume)

/-- `df["timestamp"].max()` of a batch (only used on nonempty frames). -/
def maxTimestamp (df : List Row) : Int := ((df.map Row.timestamp).max?).getD 0

/-- Embeds `backfill_data` of `src/scripts/backfill.py` for one
(exchange, symbol, timeframe) key.  `ckpt0` is the pre-existing checkpoint,
`fetched` the frame `fetch_ohlcv_range` would return, `fail` the injected
failure.  The caller-derived range start is `now − days` (in days of
86400 s); with `resume` and a checkpoint present the checkpoint's
`last_timestamp` replaces it.  On any raise the `except` clause saves a
checkpoint from the fetched frame when one is in scope and nonempty; the
checkpoint is deleted only at the end of the full success path. -/
def backfill_data (ckpt0 : Option Ckpt) (resume : Bool) (now days : Int)
    (fetched : List Row) (db0 : DB) (fail : BackfillFail) : BackfillResult :=
  let start0 := now - days * 86400
  let startUsed :=
    if resume then
      match ckpt0 with
      | some c => c.last_timestamp
      | none => start0
    else start0
  if fail = BackfillFail.fetchRaises then
    { startUsed := startUsed, db := db0, ckpt := ckpt0, events := [],
      outcome := BackfillOutcome.failed }
  else
    if fetched.isEmpty then
      { startUsed := startUsed, db := db0, ckpt := ckpt0, events := [],
        outcome := BackfillOutcome.noData }
    else
      let dfClean := if fetched.all validRow then fetched else fetched.filter validRow
      if dfClean.isEmpty then
        { startUsed := startUsed, db := db0, ckpt := ckpt0, events := [],
          outcome := BackfillOutcome.noData }
      else
        if fail = BackfillFail.insertRaises then
          { startUsed := startUsed, db := db0,
            ckpt := some ⟨maxTimestamp dfClean, dfClean.length⟩,
            events := [CkptEvent.save (maxTimestamp dfClean) dfClean.length],
            outcome := BackfillOutcome.failed }
        else
          let db1 := (insert_ohlcv db0 dfClean true InsertFail.noFail).db
          let ev1 := CkptEvent.save (maxTimestamp dfClean) dfClean.length
          if fail = BackfillFail.parquetRaises ∨ fail = BackfillFail.validationRaises ∨
              fail = BackfillFail.coverageRaises then
            { startUsed := startUsed, db := db1,
              ckpt := some ⟨maxTimestamp dfClean, dfClean.length⟩,
              events := [ev1, CkptEvent.save (maxTimestamp dfClean) dfClean.length],
              outcome := BackfillOutcome.failed }
          else
            { startUsed := startUsed, db := db1, ckpt := none,
              events := [ev1, CkptEvent.delete],
              outcome := BackfillOutcome.completed }

/-- The result of one page-level `fetch_ohlcv` call as seen by the range
loops: an exception, or a page of candle open-times (epoch ms). -/
inductive PageResult where
  | err
  | page (timestamps : List Int)
deriving DecidableEq, Repr

/-- Loop state of `BinanceConnector.fetch_ohlcv_range`: the pagination
cursor `current_timestamp` and the accumulated `all_data` pages. -/
structure BinState where
  cursor : Int
  pages : List (List Int)
deriving DecidableEq, Repr

/-- Embeds the `while current_timestamp < end_timestamp` loop of
`BinanceConnector.fetch_ohlcv_range`, driven by `fuel` loop iterations.
On a page error the code logs, sleeps a fixed 2 seconds and `continue`s:
the cursor is not advanced — there is no retry bound, no skip-forward and
no failed-batch bookkeeping.  Returns the state and whether the loop
exited (`false` = fuel exhausted with the loop still running). -/
def binanceLoop (fetch : Int → PageResult) (endTs tfMs : Int) :
    Nat → BinState → BinState × Bool
  | 0, s => (s, false)
  | fuel + 1, s =>
    if s.cursor < endTs then
      match fetch s.cursor with
      | PageResult.err => binanceLoop fetch endTs tfMs fuel s
      | PageResult.page [] => (s, true)
      | PageResult.page (t :: ts) =>
        binanceLoop fetch endTs tfMs fuel
          ⟨(t :: ts).getLast (List.cons_ne_nil t ts) + tfMs, s.pages ++ [t :: ts]⟩
    else (s, true)

/-- Loop state of `CoinbaseConnector.fetch_ohlcv_range`: cursor, the
consecutive `retry_count`, accumulated pages, the `failed_batches` record
and the backoff sleeps performed. -/
structure CbState where
  cursor : Int
  retry : Nat
  pages : List (List Int)
  failed : List (Int × Nat)
  sleeps : List Nat
deriving DecidableEq, Repr

/-- The `except` branch of `CoinbaseConnector.fetch_ohlcv_range`: increment
`retry_count`, append to `failed_batches`; once `retry_count` reaches 3
skip the cursor forward one full batch-width (`timeframe_ms * batch_size`)
and reset the count, otherwise sleep `2 ** retry_count` seconds and keep
the cursor. -/
def cbErrStep (tfMs batchSize : Int) (s : CbState) : CbState :=
  let retry1 := s.retry + 1
  let failed1 := s.failed ++ [(s.cursor, retry1)]
  if 3 ≤ retry1 then
    ⟨s.cursor + tfMs * batchSize, 0, s.pages, failed1, s.sleeps⟩
  else
    ⟨s.cursor, retry1, s.pages, failed1, s.sleeps ++ [2 ^ retry1]⟩

/-- Embeds the fetch loop of `CoinbaseConnector.fetch_ohlcv_range`.  A
successful page is filtered to timestamps `≤ end`; when the filtered frame
is empty, `df.iloc[-1]` raises `IndexError`, handled by the same `except`
clause as a page error.  A successful page resets `retry_count`. -/
def coinbaseLoop (fetch : Int → PageResult) (endTs tfMs batchSize : Int) :
    Nat → CbState → CbState × Bool
  | 0, s => (s, false)
  | fuel + 1, s =>
    if s.cursor < endTs then
      match fetch s.cursor with
      | PageResult.err =>
        coinbaseLoop fetch endTs tfMs batchSize fuel (cbErrStep tfMs batchSize s)
      | PageResult.page [] => (s, true)
      | PageResult.page (t :: ts) =>
        let dff := (t :: ts).filter fun x => decide (x ≤ endTs)
        match dff.getLast? with
        | none => coinbaseLoop fetch endTs tfMs batchSize fuel (cbErrStep tfMs batchSize s)
        | some lastT =>
          coinbaseLoop fetch endTs tfMs batchSize fuel
            ⟨lastT + tfMs, 0, s.pages ++ [dff], s.failed, s.sleeps⟩
    else (s, true)

/-- The numeric dtype a connector casts the OHLCV columns to. -/
inductive NumRepr where
  | floatRepr
  | decimalRepr
deriving DecidableEq, Repr

/-- One raw candle as returned by the ccxt client: open time in epoch ms
and the five numeric fields. -/
structure RawCandle where
  ts : Int
  o : ℚ
  h : ℚ
  l : ℚ
  c : ℚ
  v : ℚ
deriving DecidableEq, Repr

/-- A normalized connector batch: the converted timestamps, whether the
conversion attached a UTC timezone (`utc=True` to `pd.to_datetime`), the
dtype of the numeric columns after the cast, and the metadata columns. -/
structure NormBatch where
  timestamps : List Int
  tsUtcAware : Bool
  numRepr : NumRepr
  exchange : String
  symbol : String
  timeframe : String
  candles : List RawCandle
deriving DecidableEq, Repr

/-- Embeds the normalization of `BinanceConnector.fetch_ohlcv` on a
successful page: `pd.to_datetime(df["timestamp"], unit="ms")` with no
`utc=True` — timezone-naive timestamps — and `df[col].astype(float)` for
the five numeric columns, a float64 cast. -/
def binanceNormalize (symbol timeframe : String) (raw : List RawCandle) : NormBatch :=
  { timestamps := raw.map RawCandle.ts
    tsUtcAware := false
    numRepr := NumRepr.floatRepr
    exchange := "binance", symbol := symbol, timeframe := timeframe
    candles := raw }

/-- Embeds the normalization of `CoinbaseConnector.fetch_ohlcv`:
`pd.to_datetime(df["timestamp"], unit="ms", utc=True)` — UTC-aware — and
the same `astype(float)` cast of the numeric columns. -/
def coinbaseNormalize (symbol timeframe : String) (raw : List RawCandle) : NormBatch :=
  { timestamps := raw.map RawCandle.ts
    tsUtcAware := true
    numRepr := NumRepr.floatRepr
    exchange := "coinbase", symbol := symbol, timeframe := timeframe
    candles := raw }

/-- The files of one archive partition directory: the visible
`data.parquet` (if any) and the temp file `.data.parquet.tmp` (if any). -/
structure PartFS where
  visible : Option (List Row)
  tmp : Option (List Row)
deriving DecidableEq, Repr

/-- The archive, as partition state per (year, month) key (one fixed
exchange/symbol/timeframe prefix is modelled). -/
abbrev LakeFS := Int × Int → PartFS

/-- Failure injection for one partition write: success, a raise while the
temp file is being written, or a raise at the rename. -/
inductive WriteOutcome where
  | okWrite
  | failDuringWrite
  | failAtRename
deriving DecidableEq, Repr

/-- Gregorian (year, month) of a day count since the Unix epoch — the
standard `civil_from_days` calendar algorithm with floor division,
matching pandas `dt.year`/`dt.month`. -/
def civilYearMonth (z0 : Int) : Int × Int :=
  let z := z0 + 719468
  let era := Int.fdiv z 146097
  let doe := z - era * 146097
  let yoe := Int.fdiv (doe - Int.fdiv doe 1460 + Int.fdiv doe 36524 - Int.fdiv doe 146096) 365
  let y := yoe + era * 400
  let doy := doe - (365 * yoe + Int.fdiv yoe 4 - Int.fdiv yoe 100)
  let mp := Int.fdiv (5 * doy + 2) 153
  let m := mp + (if mp < 10 then 3 else -9)
  ((if m ≤ 2 then y + 1 else y), m)

/-- The partition columns `df["timestamp"].dt.year`, `.dt.month` of an
epoch-seconds timestamp. -/
def yearMonthOf (ts : Int) : Int × Int := civilYearMonth (Int.fdiv ts 86400)

/-- Worker for `monthKeys`. -/
def monthKeysGo (seen : List (Int × Int)) : List Row → List (Int × Int)
  | [] => []
  | r :: rest =>
    let k := yearMonthOf r.timestamp
    if k ∈ seen then monthKeysGo seen rest
    else k :: monthKeysGo (k :: seen) rest

/-- The distinct (year, month) group keys of a batch, in order of first
appearance — the groups of `df.groupby(["year","month"])` in
`write_partition` (pandas sorts the keys; no theorem depends on order). -/
def monthKeys (df : List Row) : List (Int × Int) := monthKeysGo [] df

/-- The rows of a batch falling in one calendar-month partition. -/
def monthRows (df : List Row) (k : Int × Int) : List Row :=
  df.filter fun r => decide (yearMonthOf r.timestamp = k)

/-- One partition write of `ParquetManager.write_partition`: the group's
rows are written to `.data.parquet.tmp` inside the partition directory and
the temp file is then renamed over `data.parquet`; on a raise during the
write or at the rename the `except` clause unlinks the temp file and
re-raises, leaving the visible file untouched. -/
def writeOnePartition (fs : PartFS) (data : List Row) (oc : WriteOutcome) :
    PartFS × Except String Unit :=
  match oc with
  | WriteOutcome.okWrite => (⟨some data, none⟩, Except.ok ())
  | WriteOutcome.failDuringWrite => (⟨fs.visible, none⟩, Except.error "parquet write failed")
  | WriteOutcome.failAtRename => (⟨fs.visible, none⟩, Except.error "rename failed")

/-- Replace the state of one partition directory in the archive. -/
def updateLake (lake : LakeFS) (k : Int × Int) (fs : PartFS) : LakeFS :=
  fun k2 => if k2 = k then fs else lake k2

/-- Worker for `write_partition`: the per-group loop; the first raising
group stops the loop and propagates its error. -/
def writePartitionGo (df : List Row) (oc : Int × Int → WriteOutcome) (lake : LakeFS) :
    List (Int × Int) → LakeFS × Except String Unit
  | [] => (lake, Except.ok ())
  | k :: rest =>
    let step := writeOnePartition (lake k) (monthRows df k) (oc k)
    match step.2 with
    | Except.ok _ => writePartitionGo df oc (updateLake lake k step.1) rest
    | Except.error e => (updateLake lake k step.1, Except.error e)

/-- Embeds `ParquetManager.write_partition`: an empty frame returns
without touching storage; otherwise the rows are grouped by calendar month
and each group is written through the temp-file/rename protocol. -/
def write_partition (lake : LakeFS) (df : List Row) (oc : Int × Int → WriteOutcome) :
    LakeFS × Except String Unit :=
  if df.isEmpty then (lake, Except.ok ())
  else writePartitionGo df oc lake (monthKeys df)

/-- Embeds `BinanceWebSocket.subscribe` after a successful send:
`self.subscriptions.extend(channels)`. -/
def subscribe (subs channels : List String) : List String := subs ++ channels

/-- Embeds `BinanceWebSocket.on_connect`: after a successful (re)connect,
when the stored list is nonempty, `subscribe` is re-issued with the stored
list itself, so `extend` appends the list to itself. -/
def on_connect (subs : List String) : List String :=
  if subs.isEmpty then subs else subscribe subs subs

/-- The operations of `BinanceWebSocket` that touch the stored
subscription list. -/
inductive WsOp where
  | subscribeOp (channels : List String)
  | subscribeKlines (symbol : String) (timeframes : List String)
  | subscribeTicker (symbol : String)
  | subscribeDepth (symbol : String) (speed : String)
  | onConnect

/-- The effect of each `BinanceWebSocket` operation on the stored
subscription list, channel names built as in the source. -/
def applyWsOp (subs : List String) : WsOp → List String
  | WsOp.subscribeOp channels => subscribe subs channels
  | WsOp.subscribeKlines symbol timeframes =>
    subscribe subs (timeframes.map fun tf => symbol.toLower ++ "@kline_" ++ tf)
  | WsOp.subscribeTicker symbol => subscribe subs [symbol.toLower ++ "@ticker"]
  | WsOp.subscribeDepth symbol speed =>
    subscribe subs [symbol.toLower ++ "@depth@" ++ speed]
  | WsOp.onConnect => on_connect subs

/-- A well-formed candle with the given key fields, used by the concrete
test stores. -/
def mkRow (exchange symbol timeframe : String) (ts : Int) : Row :=
  { exchange := exchange, symbol := symbol, timeframe := timeframe, timestamp := ts,
    open_ := 1, high := 2, low := 1, close := 2, volume := 3 }

/-- The spec's gap-detection store: 1m candles at minutes 0, 1, 2, 4, 5
(seconds 0, 60, 120, 240, 300). -/
def gapExampleStore : List Row :=
  [mkRow "binance" "BTC/USDT" "1m" 0, mkRow "binance" "BTC/USDT" "1m" 60,
    mkRow "binance" "BTC/USDT" "1m" 120, mkRow "binance" "BTC/USDT" "1m" 240,
    mkRow "binance" "BTC/USDT" "1m" 300]

/-- First batch row of the metadata counterexample (timestamp 10). -/
def metaExampleRow1 : Row := mkRow "binance" "BTC/USDT" "1h" 10

/-- Second batch row of the metadata counterexample (timestamp 20). -/
def metaExampleRow2 : Row := mkRow "binance" "BTC/USDT" "1h" 20

/-- The database after two successive successful single-row inserts for
the same key: first timestamp 10, then timestamp 20. -/
def metaExampleDB : DB :=
  (insert_ohlcv (insert_ohlcv ⟨[], []⟩ [metaExampleRow1] true InsertFail.noFail).db
    [metaExampleRow2] true InsertFail.noFail).db

/-! Theorems.  First the shared helper lemmas, then one theorem per claim
(with its witness or counterexample where required). -/

/-- The DuckDB comparison `gap_seconds > timeframe_seconds * 1.5` over the
two integers, restated as the equivalent exact integer comparison. -/
theorem gap_threshold_iff (t c : Int) : (t : ℚ) * 1.5 < (c : ℚ) ↔ 3 * t < 2 * c := by
  rw [show (1.5 : ℚ) = 3 / 2 by norm_num,
    show (t : ℚ) * (3 / 2) = 3 * (t : ℚ) / 2 by ring,
    div_lt_iff₀ (by norm_num : (0 : ℚ) < 2), mul_comm (c : ℚ) 2,
    show (2 : ℚ) * (c : ℚ) = ((2 * c : Int) : ℚ) by push_cast; ring,
    show 3 * (t : ℚ) = ((3 * t : Int) : ℚ) by push_cast; ring]
  exact Int.cast_lt

/-- The gap filter predicate, rewritten to its integer form. -/
theorem gapPred_eq (t : Int) (p : Int × Int) :
    (decide ((t : ℚ) * 1.5 < ((p.2 - p.1 : Int) : ℚ))) =
      decide (3 * t < 2 * (p.2 - p.1)) :=
  decide_eq_decide.mpr (gap_threshold_iff t (p.2 - p.1))

/-- C1 counterexample: on the spec's own example store — 1m candles at
minutes 0, 1, 2, 4, 5 — `detect_gaps` does return exactly one gap spanning
minute 2 to minute 4, but its `missing_candles` value is the DuckDB float
division `gap_seconds / timeframe_seconds = 120 / 60 = 2`, not 1. -/
theorem detect_gaps_example_missing_candles_ne_one :
    detect_gaps gapExampleStore "BTC/USDT" "1m" "binance" =
      [{ gap_start := 120, gap_end := 240, gap_seconds := 120, missing_candles := 2 }] ∧
    (2 : ℚ) ≠ 1 := by
  constructor
  · have hts : gapTimestamps gapExampleStore "binance" "BTC/USDT" "1m" =
        [0, 60, 120, 240, 300] := by decide
    have htf : timeframe_to_seconds "1m" = 60 := by decide
    simp only [detect_gaps, hts, htf]
    rw [List.filter_congr fun a _ => gapPred_eq 60 a]
    have hfil : (consecPairs [0, 60, 120, 240, 300]).filter
        (fun p => decide (3 * 60 < 2 * (p.2 - p.1))) = [(120, 240)] := by decide
    rw [hfil]
    simp only [List.map_cons, List.map_nil, List.cons.injEq, and_true, Gap.mk.injEq]
    norm_num
  · norm_num

/-- C1 amended: a consecutive delta of one key's sorted timestamps is
reported by `detect_gaps` exactly when it exceeds 1.5 times the nominal
timeframe interval, and every reported gap is annotated with
`missing_candles = gap_seconds / timeframe_seconds` — exact (float)
division, not rounded down. -/
theorem detect_gaps_threshold_and_ratio
    (store : List Row) (exchange symbol timeframe : String) (p : Int × Int)
    (hp : p ∈ consecPairs (gapTimestamps store exchange symbol timeframe)) :
    ((timeframe_to_seconds timeframe : ℚ) * 1.5 < ((p.2 - p.1 : Int) : ℚ) ↔
      ({ gap_start := p.1, gap_end := p.2, gap_seconds := p.2 - p.1,
          missing_candles :=
            ((p.2 - p.1 : Int) : ℚ) / (timeframe_to_seconds timeframe : ℚ) } : Gap)
        ∈ detect_gaps store symbol timeframe exchange) ∧
    (∀ g ∈ detect_gaps store symbol timeframe exchange,
      g.missing_candles = (g.gap_seconds : ℚ) / (timeframe_to_seconds timeframe : ℚ)) := by
  constructor
  · constructor
    · intro h
      exact List.mem_map.mpr ⟨p, List.mem_filter.mpr ⟨hp, by simpa using h⟩, rfl⟩
    · intro h
      obtain ⟨q, hq, hfq⟩ := List.mem_map.mp h
      have h1 : q.1 = p.1 := congrArg Gap.gap_start hfq
      have h2 : q.2 = p.2 := congrArg Gap.gap_end hfq
      have hqp : q = p := Prod.ext h1 h2
      subst hqp
      simpa using (List.mem_filter.mp hq).2
  · intro g hg
    obtain ⟨q, _, rfl⟩ := List.mem_map.mp hg
    rfl

/-- C1 witness: the amended statement evaluated on the example store at
the consecutive pair (minute 2, minute 4). -/
theorem detect_gaps_threshold_and_ratio_witness :
    ((timeframe_to_seconds "1m" : ℚ) * 1.5 < (((240 : Int) - 120 : Int) : ℚ) ↔
      ({ gap_start := 120, gap_end := 240, gap_seconds := (240 : Int) - 120,
          missing_candles :=
            (((240 : Int) - 120 : Int) : ℚ) / (timeframe_to_seconds "1m" : ℚ) } : Gap)
        ∈ detect_gaps gapExampleStore "BTC/USDT" "1m" "binance") ∧
    (∀ g ∈ detect_gaps gapExampleStore "BTC/USDT" "1m" "binance",
      g.missing_candles = (g.gap_seconds : ℚ) / (timeframe_to_seconds "1m" : ℚ)) :=
  detect_gaps_threshold_and_ratio gapExampleStore "binance" "BTC/USDT" "1m"
    (120, 240) (by decide)

/-- Folding the insert statement over the empty batch is the identity. -/
theorem applyInsert_nil (t : List Row) (b : Bool) : applyInsert t [] b = t := by
  cases b <;> rfl

/-- C2: `insert_ohlcv` is atomic over the data table: every call either
succeeds with the whole deduplicated batch applied to `ohlcv_raw` inside
the single transaction, or fails with the committed state exactly as
before the call and the error propagated to the caller — a partially
written batch is never observable. -/
theorem insert_ohlcv_atomic (db : DB) (df : List Row) (replace_duplicates : Bool)
    (fail : InsertFail) :
    ((∃ n, (insert_ohlcv db df replace_duplicates fail).res = Except.ok n) ∧
      (insert_ohlcv db df replace_duplicates fail).db.ohlcv =
        applyInsert db.ohlcv (dedupKeepFirst df) replace_duplicates) ∨
    ((∃ e, (insert_ohlcv db df replace_duplicates fail).res = Except.error e) ∧
      (insert_ohlcv db df replace_duplicates fail).db = db) := by
  by_cases hdf : df.isEmpty
  · have hnil : df = [] := List.isEmpty_iff.mp hdf
    subst hnil
    exact Or.inl ⟨⟨0, rfl⟩, (applyInsert_nil db.ohlcv replace_duplicates).symm⟩
  · cases fail with
    | noFail =>
      exact Or.inl ⟨⟨(dedupKeepFirst df).length, by simp [insert_ohlcv, hdf]⟩,
        by simp [insert_ohlcv, hdf]⟩
    | atInsert =>
      exact Or.inr ⟨⟨"insert failed", by simp [insert_ohlcv, hdf]⟩,
        by simp [insert_ohlcv, hdf]⟩
    | atMeta i =>
      exact Or.inl ⟨⟨(dedupKeepFirst df).length, by simp [insert_ohlcv, hdf]⟩,
        by simp [insert_ohlcv, hdf]⟩
    | atCommit =>
      exact Or.inr ⟨⟨"commit failed", by simp [insert_ohlcv, hdf]⟩,
        by simp [insert_ohlcv, hdf]⟩

/-- A single `INSERT OR IGNORE` of a row whose key is already present is
the identity. -/
theorem ignoreBy_of_mem {α κ : Type} (f : α → κ) [DecidableEq κ] (t : List α) (x : α)
    (hx : f x ∈ t.map f) : ignoreBy f t x = t := by
  unfold ignoreBy
  rw [if_pos]
  obtain ⟨y, hy, hfy⟩ := List.mem_map.mp hx
  exact List.any_eq_true.mpr ⟨y, hy, by simp [hfy]⟩

/-- `INSERT OR IGNORE` of a batch whose keys are all already present
changes nothing. -/
theorem applyIgnoreAll_of_all_mem {α κ : Type} (f : α → κ) [DecidableEq κ]
    (t : List α) (xs : List α) (h : ∀ x ∈ xs, f x ∈ t.map f) :
    applyIgnoreAll f t xs = t := by
  induction xs with
  | nil => rfl
  | cons x rest ih =>
    unfold applyIgnoreAll at ih ⊢
    simp only [List.foldl_cons]
    rw [ignoreBy_of_mem f t x (h x (by simp))]
    exact ih fun y hy => h y (by simp [hy])

/-- Deduplication only keeps rows of the original batch. -/
theorem dedupGo_subset (df : List Row) : ∀ (seen : List RowKey),
    ∀ r ∈ dedupGo seen df, r ∈ df := by
  induction df with
  | nil => intro seen r hr; cases hr
  | cons a rest ih =>
    intro seen r hr
    unfold dedupGo at hr
    by_cases ha : keyOf a ∈ seen
    · exact List.mem_cons_of_mem a (ih seen r (by simpa [ha] using hr))
    · rw [if_neg ha] at hr
      rcases List.mem_cons.mp hr with h | h
      · exact h ▸ List.mem_cons_self a rest
      · exact List.mem_cons_of_mem a (ih _ r h)

/-- Rows surviving `dedupKeepFirst` come from the batch. -/
theorem dedupKeepFirst_subset (df : List Row) : ∀ r ∈ dedupKeepFirst df, r ∈ df :=
  dedupGo_subset df []

/-- C9: the return value of `insert_ohlcv` is the deduplicated batch size,
not a changed-row count: the empty batch returns 0 with the store
untouched and no SQL statement issued (no transaction opened); a
successful insert returns `len(df_insert)` whatever the store contained;
and with `replace_duplicates = False` a batch whose keys all already exist
leaves the data table unchanged while still returning the full
deduplicated batch size. -/
theorem insert_ohlcv_return_semantics :
    (∀ (db : DB) (replace_duplicates : Bool) (fail : InsertFail),
      insert_ohlcv db [] replace_duplicates fail = ⟨db, Except.ok 0, []⟩) ∧
    (∀ (db : DB) (df : List Row) (replace_duplicates : Bool),
      (insert_ohlcv db df replace_duplicates InsertFail.noFail).res =
        Except.ok (dedupKeepFirst df).length) ∧
    (∀ (db : DB) (df : List Row), (∀ r ∈ df, keyOf r ∈ db.ohlcv.map keyOf) →
      (insert_ohlcv db df false InsertFail.noFail).db.ohlcv = db.ohlcv) := by
  refine ⟨fun db rep fail => rfl, fun db df rep => ?_, fun db df h => ?_⟩
  · by_cases hdf : df.isEmpty
    · have hnil : df = [] := List.isEmpty_iff.mp hdf
      subst hnil
      rfl
    · simp [insert_ohlcv, hdf]
  · by_cases hdf : df.isEmpty
    · have hnil : df = [] := List.isEmpty_iff.mp hdf
      subst hnil
      rfl
    · have hid : applyIgnoreAll keyOf db.ohlcv (dedupKeepFirst df) = db.ohlcv :=
        applyIgnoreAll_of_all_mem keyOf db.ohlcv (dedupKeepFirst df)
          fun x hx => h x (dedupKeepFirst_subset df x hx)
      simp only [insert_ohlcv, hdf]
      simpa [applyInsert] using hid

/-- C9 witness: the three statements evaluated on concrete stores — an
empty batch against an arbitrary store, and a one-row batch whose key is
already stored, inserted with `replace_duplicates = False`. -/
theorem insert_ohlcv_return_semantics_witness :
    insert_ohlcv (DB.mk [] []) [] true InsertFail.noFail =
      ⟨DB.mk [] [], Except.ok 0, []⟩ ∧
    (insert_ohlcv (DB.mk [metaExampleRow1] []) [metaExampleRow1] false
        InsertFail.noFail).db.ohlcv = [metaExampleRow1] :=
  ⟨insert_ohlcv_return_semantics.1 (DB.mk [] []) true InsertFail.noFail,
    insert_ohlcv_return_semantics.2.2 (DB.mk [metaExampleRow1] []) [metaExampleRow1]
      (by intro r hr
          rw [List.mem_singleton] at hr
          subst hr
          exact List.mem_map_of_mem keyOf (List.mem_singleton.mpr rfl))⟩

/-- Replacement at a foreign key leaves the rows carrying key `k`
unchanged. -/
theorem filterKey_map_replace {α κ : Type} (f : α → κ) [DecidableEq κ]
    (x : α) (k : κ) (hx : f x ≠ k) (t : List α) :
    ((t.map fun y => if f y = f x then x else y).filter fun y => decide (f y = k)) =
      t.filter fun y => decide (f y = k) := by
  induction t with
  | nil => rfl
  | cons a rest ih =>
    by_cases ha : f a = f x
    · simp only [List.map_cons, List.filter_cons, if_pos ha]
      have hak : ¬ f a = k := ha ▸ hx
      simp [hx, hak, ih]
    · simp only [List.map_cons, List.filter_cons, if_neg ha]
      by_cases hk : f a = k <;> simp [hk, ih]

/-- An `INSERT OR REPLACE` at a foreign key leaves the rows carrying key
`k` unchanged. -/
theorem filterKey_upsertBy_other {α κ : Type} (f : α → κ) [DecidableEq κ]
    (t : List α) (x : α) (k : κ) (hx : f x ≠ k) :
    ((upsertBy f t x).filter fun y => decide (f y = k)) =
      t.filter fun y => decide (f y = k) := by
  unfold upsertBy
  split
  · exact filterKey_map_replace f x k hx t
  · rw [List.filter_append]
    simp [hx]

/-- A fold of `INSERT OR REPLACE`s over foreign keys leaves the rows
carrying key `k` unchanged. -/
theorem filterKey_foldl_other {α κ : Type} (f : α → κ) [DecidableEq κ] (k : κ) :
    ∀ (xs : List α) (t : List α), k ∉ xs.map f →
      ((xs.foldl (upsertBy f) t).filter fun y => decide (f y = k)) =
        t.filter fun y => decide (f y = k) := by
  intro xs
  induction xs with
  | nil => intro t _; rfl
  | cons x rest ih =>
    intro t hk
    simp only [List.map_cons, List.mem_cons, not_or] at hk
    simp only [List.foldl_cons]
    rw [ih (upsertBy f t x) hk.2, filterKey_upsertBy_other f t x k fun h => hk.1 h.symm]

/-- After an `INSERT OR REPLACE` of `x`, every row carrying the key of `x`
is `x` itself. -/
theorem upsertBy_all_at_key {α κ : Type} (f : α → κ) [DecidableEq κ]
    (t : List α) (x : α) : ∀ y ∈ upsertBy f t x, f y = f x → y = x := by
  intro y hy hfy
  unfold upsertBy at hy
  split at hy
  · obtain ⟨z, hz, hgz⟩ := List.mem_map.mp hy
    by_cases h : f z = f x
    · rw [if_pos h] at hgz
      exact hgz.symm
    · rw [if_neg h] at hgz
      exact absurd (hgz ▸ hfy) h
  · rename_i hany
    rcases List.mem_append.mp hy with h | h
    · exact absurd (List.any_eq_true.mpr ⟨y, h, by simp [hfy]⟩) hany
    · simpa using h

/-- After an `INSERT OR REPLACE` of `x`, the row `x` is present at its
key. -/
theorem upsertBy_key_mem {α κ : Type} (f : α → κ) [DecidableEq κ]
    (t : List α) (x : α) :
    x ∈ ((upsertBy f t x).filter fun y => decide (f y = f x)) := by
  rw [List.mem_filter]
  refine ⟨?_, by simp⟩
  unfold upsertBy
  split
  · rename_i hany
    obtain ⟨z, hz, hpz⟩ := List.any_eq_true.mp hany
    have hfz : f z = f x := of_decide_eq_true hpz
    exact List.mem_map.mpr ⟨z, hz, by rw [if_pos hfz]⟩
  · exact List.mem_append.mpr (Or.inr (by simp))

/-- Replacing every row at the key of `x` by `x` is the identity when the
rows at that key already all equal `x`. -/
theorem map_replace_id {α κ : Type} (f : α → κ) [DecidableEq κ] (x : α) :
    ∀ t : List α, (∀ y ∈ t, f y = f x → y = x) →
      (t.map fun y => if f y = f x then x else y) = t := by
  intro t
  induction t with
  | nil => intro _; rfl
  | cons a rest ih =>
    intro h
    simp only [List.map_cons]
    congr 1
    · by_cases ha : f a = f x
      · rw [if_pos ha]
        exact (h a (by simp) ha).symm
      · rw [if_neg ha]
    · exact ih fun y hy hfy => h y (by simp [hy]) hfy

/-- An `INSERT OR REPLACE` of `x` into a table already holding exactly `x`
at its key is the identity. -/
theorem upsertBy_eq_self {α κ : Type} (f : α → κ) [DecidableEq κ]
    (t : List α) (x : α) (hall : ∀ y ∈ t, f y = f x → y = x)
    (hmem : ∃ y ∈ t, f y = f x) : upsertBy f t x = t := by
  obtain ⟨y, hy, hfy⟩ := hmem
  unfold upsertBy
  rw [if_pos (List.any_eq_true.mpr ⟨y, hy, by simp [hfy]⟩)]
  exact map_replace_id f x t hall

/-- Folding a batch of `INSERT OR REPLACE`s with pairwise-distinct keys a
second time changes nothing. -/
theorem applyUpserts_idem {α κ : Type} (f : α → κ) [DecidableEq κ] :
    ∀ (xs : List α) (t : List α), (xs.map f).Nodup →
      List.foldl (upsertBy f) (List.foldl (upsertBy f) t xs) xs =
        List.foldl (upsertBy f) t xs := by
  intro xs
  induction xs with
  | nil => intro t _; rfl
  | cons x rest ih =>
    intro t hnd
    simp only [List.map_cons, List.nodup_cons] at hnd
    obtain ⟨hx, hrest⟩ := hnd
    simp only [List.foldl_cons]
    have hfil : ((List.foldl (upsertBy f) (upsertBy f t x) rest).filter
          fun y => decide (f y = f x)) =
        (upsertBy f t x).filter (fun y => decide (f y = f x)) :=
      filterKey_foldl_other f (f x) rest (upsertBy f t x) hx
    have hall : ∀ y ∈ List.foldl (upsertBy f) (upsertBy f t x) rest,
        f y = f x → y = x := by
      intro y hy hfy
      have hmemf : y ∈ ((List.foldl (upsertBy f) (upsertBy f t x) rest).filter
          fun y => decide (f y = f x)) :=
        List.mem_filter.mpr ⟨hy, by simp [hfy]⟩
      rw [hfil] at hmemf
      exact upsertBy_all_at_key f t x y (List.mem_filter.mp hmemf).1 hfy
    have hmem : ∃ y ∈ List.foldl (upsertBy f) (upsertBy f t x) rest, f y = f x := by
      have hself := upsertBy_key_mem f t x
      rw [← hfil] at hself
      obtain ⟨h1, h2⟩ := List.mem_filter.mp hself
      exact ⟨x, h1, of_decide_eq_true h2⟩
    rw [upsertBy_eq_self f _ x hall hmem]
    exact ih (upsertBy f t x) hrest

/-- Deduplicated batches carry pairwise-distinct keys (and keys disjoint
from the seen-set). -/
theorem dedupGo_keys_nodup (df : List Row) : ∀ seen,
    ((dedupGo seen df).map keyOf).Nodup ∧
      ∀ k ∈ (dedupGo seen df).map keyOf, k ∉ seen := by
  induction df with
  | nil => intro seen; exact ⟨List.nodup_nil, by simp [dedupGo]⟩
  | cons r rest ih =>
    intro seen
    unfold dedupGo
    by_cases hr : keyOf r ∈ seen
    · rw [if_pos hr]
      exact ih seen
    · rw [if_neg hr]
      obtain ⟨ihnd, ihseen⟩ := ih (keyOf r :: seen)
      constructor
      · simp only [List.map_cons, List.nodup_cons]
        exact ⟨fun hmem => (ihseen _ hmem) (by simp), ihnd⟩
      · intro k hk
        simp only [List.map_cons, List.mem_cons] at hk
        rcases hk with h | h
        · exact h ▸ hr
        · exact fun hs => ihseen k h (List.mem_cons_of_mem _ hs)

/-- The keys of a deduplicated batch are pairwise distinct. -/
theorem dedupKeepFirst_keys_nodup (df : List Row) :
    ((dedupKeepFirst df).map keyOf).Nodup :=
  (dedupGo_keys_nodup df []).1

/-- C6: `insert_ohlcv` is idempotent under replace semantics — inserting
the same batch twice with `replace_duplicates = True` leaves `ohlcv_raw`
with exactly the rows (and hence the row count) of inserting it once. -/
theorem insert_ohlcv_replace_idempotent (db : DB) (df : List Row) :
    (insert_ohlcv (insert_ohlcv db df true InsertFail.noFail).db df true
        InsertFail.noFail).db.ohlcv =
      (insert_ohlcv db df true InsertFail.noFail).db.ohlcv ∧
    (insert_ohlcv (insert_ohlcv db df true InsertFail.noFail).db df true
        InsertFail.noFail).db.ohlcv.length =
      (insert_ohlcv db df true InsertFail.noFail).db.ohlcv.length := by
  have hmain : (insert_ohlcv (insert_ohlcv db df true InsertFail.noFail).db df true
      InsertFail.noFail).db.ohlcv =
      (insert_ohlcv db df true InsertFail.noFail).db.ohlcv := by
    by_cases hdf : df.isEmpty
    · have hnil : df = [] := List.isEmpty_iff.mp hdf
      subst hnil
      rfl
    · simp only [insert_ohlcv, hdf]
      simp only [Bool.false_eq_true, if_false, applyInsert, if_true]
      exact applyUpserts_idem keyOf (dedupKeepFirst df) db.ohlcv
        (dedupKeepFirst_keys_nodup df)
  exact ⟨hmain, congrArg List.length hmain⟩

/-- Lookup after an `INSERT OR REPLACE` finds the freshly written row. -/
theorem find_upsertBy_self {α κ : Type} (f : α → κ) [DecidableEq κ]
    (x : α) : ∀ t : List α,
    (upsertBy f t x).find? (fun y => decide (f y = f x)) = some x := by
  intro t
  unfold upsertBy
  split
  · rename_i hany
    induction t with
    | nil => cases hany
    | cons a rest ih =>
      by_cases ha : f a = f x
      · simp only [List.map_cons, if_pos ha]
        exact List.find?_cons_of_pos _ (by simp)
      · simp only [List.map_cons, if_neg ha]
        rw [List.find?_cons_of_neg _ (by simp [ha])]
        exact ih (by simpa [ha] using hany)
  · rename_i hany
    induction t with
    | nil => exact List.find?_cons_of_pos _ (by simp)
    | cons a rest ih =>
      have hsplit := List.any_eq_true.not.mp hany
      push_neg at hsplit
      have ha : ¬ f a = f x := by
        have := hsplit a (by simp)
        simpa using this
      simp only [List.cons_append]
      rw [List.find?_cons_of_neg _ (by simp [ha])]
      exact ih (by
        intro h
        obtain ⟨z, hz, hpz⟩ := List.any_eq_true.mp h
        exact absurd (List.any_eq_true.mpr ⟨z, by simp [hz], hpz⟩) hany)

/-- Lookup at a foreign key ignores the replacement map. -/
theorem find_map_replace {α κ : Type} (f : α → κ) [DecidableEq κ]
    (x : α) (key : κ) (hx : f x ≠ key) : ∀ t : List α,
    ((t.map fun y => if f y = f x then x else y).find? fun y => decide (f y = key)) =
      t.find? fun y => decide (f y = key) := by
  intro t
  induction t with
  | nil => rfl
  | cons a rest ih =>
    by_cases ha : f a = f x
    · simp only [List.map_cons, if_pos ha]
      rw [List.find?_cons_of_neg _ (by simp [hx]),
        List.find?_cons_of_neg _ (by simp [ha ▸ hx])]
      exact ih
    · simp only [List.map_cons, if_neg ha]
      by_cases hk : f a = key
      · rw [List.find?_cons_of_pos _ (by simp [hk]),
          List.find?_cons_of_pos _ (by simp [hk])]
      · rw [List.find?_cons_of_neg _ (by simp [hk]),
          List.find?_cons_of_neg _ (by simp [hk])]
        exact ih

/-- Lookup ignores an appended row that fails the predicate. -/
theorem find_append_single {α : Type} (p : α → Bool) (x : α) (hpx : p x = false) :
    ∀ t : List α, (t ++ [x]).find? p = t.find? p := by
  intro t
  induction t with
  | nil => simp [List.find?, hpx]
  | cons a rest ih =>
    simp only [List.cons_append]
    cases hpa : p a
    · rw [List.find?_cons_of_neg _ (by simp [hpa]), List.find?_cons_of_neg _ (by simp [hpa])]
      exact ih
    · rw [List.find?_cons_of_pos _ hpa, List.find?_cons_of_pos _ hpa]

/-- Lookup at a foreign key is unchanged by an `INSERT OR REPLACE`. -/
theorem find_upsertBy_other {α κ : Type} (f : α → κ) [DecidableEq κ]
    (x : α) (key : κ) (hx : f x ≠ key) : ∀ t : List α,
    (upsertBy f t x).find? (fun y => decide (f y = key)) =
      t.find? fun y => decide (f y = key) := by
  intro t
  unfold upsertBy
  split
  · exact find_map_replace f x key hx t
  · exact find_append_single _ x (by simp [hx]) t

/-- The metadata row built for a group carries that group's key. -/
theorem metaKey_metaRowFor (k : MetaKey) (rows : List Row) :
    metaKey (metaRowFor k rows) = k := rfl

/-- The metadata fold leaves foreign keys untouched. -/
theorem findMeta_metaFold_other (df : List Row) (key : MetaKey) :
    ∀ (ks : List MetaKey) (m : List MetaRow), key ∉ ks →
      findMeta (ks.foldl
        (fun m k => upsertBy metaKey m (metaRowFor k (groupRows df k))) m) key =
        findMeta m key := by
  intro ks
  induction ks with
  | nil => intro m _; rfl
  | cons k0 rest ih =>
    intro m hk
    simp only [List.mem_cons, not_or] at hk
    simp only [List.foldl_cons]
    rw [ih _ hk.2]
    unfold findMeta
    rw [show (fun y => decide (metaKey y = key)) =
        fun y => decide (metaKey y = key) from rfl]
    exact find_upsertBy_other metaKey (metaRowFor k0 (groupRows df k0)) key
      (by rw [metaKey_metaRowFor]; exact fun h => hk.1 h.symm) m

/-- After the metadata fold, each folded key holds its group's metadata
row. -/
theorem findMeta_metaFold_mem (df : List Row) :
    ∀ (ks : List MetaKey) (m : List MetaRow) (k : MetaKey), ks.Nodup → k ∈ ks →
      findMeta (ks.foldl
        (fun m k => upsertBy metaKey m (metaRowFor k (groupRows df k))) m) k =
        some (metaRowFor k (groupRows df k)) := by
  intro ks
  induction ks with
  | nil => intro m k _ hk; cases hk
  | cons k0 rest ih =>
    intro m k hnd hk
    simp only [List.nodup_cons] at hnd
    simp only [List.foldl_cons]
    rcases List.mem_cons.mp hk with h | h
    · subst h
      rw [findMeta_metaFold_other df k rest _ hnd.1]
      unfold findMeta
      have hkey : metaKey (metaRowFor k (groupRows df k)) = k := metaKey_metaRowFor k _
      calc (upsertBy metaKey m (metaRowFor k (groupRows df k))).find?
            (fun y => decide (metaKey y = k))
          = (upsertBy metaKey m (metaRowFor k (groupRows df k))).find?
            (fun y => decide (metaKey y = metaKey (metaRowFor k (groupRows df k)))) := by
            rw [hkey]
        _ = some (metaRowFor k (groupRows df k)) := find_upsertBy_self metaKey _ m
    · exact ih _ k hnd.2 h

/-- The group keys of a batch are pairwise distinct (and disjoint from the
seen-set). -/
theorem groupKeysGo_nodup (df : List Row) : ∀ seen,
    (groupKeysGo seen df).Nodup ∧ ∀ k ∈ groupKeysGo seen df, k ∉ seen := by
  induction df with
  | nil => intro seen; exact ⟨List.nodup_nil, by simp [groupKeysGo]⟩
  | cons r rest ih =>
    intro seen
    unfold groupKeysGo
    by_cases hr : groupKeyOf r ∈ seen
    · rw [if_pos hr]
      exact ih seen
    · rw [if_neg hr]
      obtain ⟨ihnd, ihseen⟩ := ih (groupKeyOf r :: seen)
      constructor
      · exact List.nodup_cons.mpr ⟨fun hmem => (ihseen _ hmem) (by simp), ihnd⟩
      · intro k hk
        rcases List.mem_cons.mp hk with h | h
        · exact h ▸ hr
        · exact fun hs => ihseen k h (List.mem_cons_of_mem _ hs)

/-- The group keys of a batch are pairwise distinct. -/
theorem groupKeys_nodup (df : List Row) : (groupKeys df).Nodup :=
  (groupKeysGo_nodup df []).1

/-- C3 counterexample: two successive successful single-key inserts
(timestamps 10 then 20).  The second insert succeeds, the store holds two
rows with minimum stored timestamp 10, yet the metadata row says
`first_timestamp = 20` and `total_records = 1` — the aggregate of the last
inserted batch, not of the stored data. -/
theorem insert_metadata_stale_counterexample :
    (insert_ohlcv (insert_ohlcv ⟨[], []⟩ [metaExampleRow1] true InsertFail.noFail).db
        [metaExampleRow2] true InsertFail.noFail).res = Except.ok 1 ∧
    metaExampleDB.ohlcv.length = 2 ∧
    ((metaExampleDB.ohlcv.map Row.timestamp).min?).getD 0 = 10 ∧
    findMeta metaExampleDB.meta ("binance", "BTC/USDT", "1h") =
      some { exchange := "binance", symbol := "BTC/USDT", timeframe := "1h",
             first_timestamp := 20, last_timestamp := 20, total_records := 1 } ∧
    (20 : Int) ≠ 10 ∧ (1 : Nat) ≠ 2 :=
  ⟨rfl, by decide, by decide, by decide, by decide, by decide⟩

/-- C3 amended: after a successful `insert_ohlcv`, the metadata row of
every key present in the batch equals the aggregate of the *deduplicated
batch group* — its minimum and maximum timestamp and its row count —
overwriting any previous metadata for that key; it is written in the same
transaction, but it does not aggregate over all stored rows of the key. -/
theorem insert_metadata_batch_aggregate (db : DB) (df : List Row)
    (replace_duplicates : Bool) (k : MetaKey)
    (hk : k ∈ groupKeys (dedupKeepFirst df)) :
    findMeta (insert_ohlcv db df replace_duplicates InsertFail.noFail).db.meta k =
      some (metaRowFor k (groupRows (dedupKeepFirst df) k)) := by
  by_cases hdf : df.isEmpty
  · have hnil : df = [] := List.isEmpty_iff.mp hdf
    subst hnil
    simp [dedupKeepFirst, dedupGo, groupKeys, groupKeysGo] at hk
  · simp only [insert_ohlcv, hdf, Bool.false_eq_true, if_false]
    simp only [update_metadata, InsertFail.metaIdx]
    exact findMeta_metaFold_mem (dedupKeepFirst df) (groupKeys (dedupKeepFirst df))
      db.meta k (groupKeys_nodup (dedupKeepFirst df)) hk

/-- C3 witness: the amended statement evaluated on a concrete single-row
insert. -/
theorem insert_metadata_batch_aggregate_witness :
    findMeta (insert_ohlcv ⟨[], []⟩ [metaExampleRow1] true InsertFail.noFail).db.meta
        ("binance", "BTC/USDT", "1h") =
      some (metaRowFor ("binance", "BTC/USDT", "1h")
        (groupRows (dedupKeepFirst [metaExampleRow1]) ("binance", "BTC/USDT", "1h"))) :=
  insert_metadata_batch_aggregate ⟨[], []⟩ [metaExampleRow1] true
    ("binance", "BTC/USDT", "1h") (by decide)

/-- C5: checkpoint-based resume in `backfill_data`: with `resume`
requested and a checkpoint present, the effective fetch-range start is the
checkpoint's `last_timestamp`, not the caller-derived `now − days`; the
checkpoint is deleted only on the full success path; and a failed run that
started with a checkpoint always leaves some checkpoint in place for the
next retry. -/
theorem backfill_checkpoint_resume (ckpt0 : Option Ckpt) (resume : Bool)
    (now days : Int) (fetched : List Row) (db0 : DB) (fail : BackfillFail) :
    (∀ c : Ckpt, resume = true → ckpt0 = some c →
      (backfill_data ckpt0 resume now days fetched db0 fail).startUsed =
        c.last_timestamp) ∧
    (CkptEvent.delete ∈ (backfill_data ckpt0 resume now days fetched db0 fail).events →
      (backfill_data ckpt0 resume now days fetched db0 fail).outcome =
        BackfillOutcome.completed) ∧
    ((backfill_data ckpt0 resume now days fetched db0 fail).outcome =
        BackfillOutcome.failed → ckpt0.isSome →
      (backfill_data ckpt0 resume now days fetched db0 fail).ckpt.isSome) := by
  refine ⟨?_, ?_, ?_⟩
  · intro c hres hc
    subst hres
    subst hc
    simp only [backfill_data]
    split_ifs <;> simp
  · intro hmem
    simp only [backfill_data] at hmem ⊢
    split_ifs at hmem ⊢ <;> simp_all
  · intro hout hsome
    simp only [backfill_data] at hout ⊢
    split_ifs at hout ⊢ <;> simp_all

/-- C5 witness: a resumed run with checkpoint at timestamp 777 whose
insert step fails: the fetch start is 777, not `now − days`, and a
checkpoint is still in place afterwards. -/
theorem backfill_checkpoint_resume_witness :
    (backfill_data (some ⟨777, 5⟩) true 1000000 3 [metaExampleRow1] ⟨[], []⟩
        BackfillFail.insertRaises).startUsed = 777 ∧
    (backfill_data (some ⟨777, 5⟩) true 1000000 3 [metaExampleRow1] ⟨[], []⟩
        BackfillFail.insertRaises).ckpt.isSome :=
  ⟨(backfill_checkpoint_resume (some ⟨777, 5⟩) true 1000000 3 [metaExampleRow1]
      ⟨[], []⟩ BackfillFail.insertRaises).1 ⟨777, 5⟩ rfl rfl,
    (backfill_checkpoint_resume (some ⟨777, 5⟩) true 1000000 3 [metaExampleRow1]
      ⟨[], []⟩ BackfillFail.insertRaises).2.2 (by decide) rfl⟩

/-- C4 counterexample: in `BinanceConnector.fetch_ohlcv_range`, under
sustained page failure the loop makes no forward progress: after 20 loop
iterations with every page raising, the cursor is still at its start and
the loop has not exited — there is no retry bound, no batch-width skip and
no termination, contradicting the claimed policy for every connector. -/
theorem binance_range_no_progress_counterexample :
    binanceLoop (fun _ => PageResult.err) 1000000 60000 20 ⟨0, []⟩ =
      (⟨0, []⟩, false) := rfl

/-- A failing Binance page leaves the loop state exactly as it was: the
iteration only sleeps and continues. -/
theorem binanceLoop_err_no_advance (fetch : Int → PageResult) (endTs tfMs : Int)
    (fuel : Nat) (s : BinState) (herr : fetch s.cursor = PageResult.err)
    (hc : s.cursor < endTs) :
    binanceLoop fetch endTs tfMs (fuel + 1) s = binanceLoop fetch endTs tfMs fuel s := by
  simp only [binanceLoop]
  rw [if_pos hc, herr]

/-- Under sustained page failure Coinbase's loop still terminates: with
retries starting at 0, a range at most `k` batch-widths past the cursor
and at least `3k + 1` loop iterations of fuel, the loop exits. -/
theorem coinbase_alwaysErr_terminates (endTs tfMs batchSize : Int) :
    ∀ (k : Nat) (fuel : Nat) (s : CbState), s.retry = 0 →
      endTs ≤ s.cursor + (k : Int) * (tfMs * batchSize) → 3 * k + 1 ≤ fuel →
      (coinbaseLoop (fun _ => PageResult.err) endTs tfMs batchSize fuel s).2 = true := by
  intro k
  induction k with
  | zero =>
    intro fuel s hretry hend hfuel
    obtain ⟨f, rfl⟩ : ∃ f, fuel = f + 1 := ⟨fuel - 1, by omega⟩
    simp only [coinbaseLoop]
    rw [if_neg (by simp only [Nat.cast_zero, zero_mul, add_zero] at hend; omega)]
  | succ k ih =>
    intro fuel s hretry hend hfuel
    by_cases hc : s.cursor < endTs
    · obtain ⟨cur, retry, pages, failed, sleeps⟩ := s
      simp only at hretry hc
      subst hretry
      obtain ⟨f, rfl⟩ : ∃ f, fuel = f + 3 := ⟨fuel - 3, by omega⟩
      show (coinbaseLoop (fun _ => PageResult.err) endTs tfMs batchSize (f + 2 + 1)
        ⟨cur, 0, pages, failed, sleeps⟩).2 = true
      simp only [coinbaseLoop]
      rw [if_pos hc]
      simp only [cbErrStep]
      norm_num
      rw [if_pos hc]
      rw [if_pos hc]
      apply ih f _ rfl ?_ (by omega)
      have hstep : ((k : Int) + 1) * (tfMs * batchSize) =
          (k : Int) * (tfMs * batchSize) + tfMs * batchSize := by ring
      simp only [Nat.cast_add, Nat.cast_one] at hend
      simp only
      omega
    · obtain ⟨f, rfl⟩ : ∃ f, fuel = f + 1 := ⟨fuel - 1, by omega⟩
      simp only [coinbaseLoop]
      rw [if_neg hc]

/-- C4 amended: the claimed page-retry policy is implemented only by
`CoinbaseConnector.fetch_ohlcv_range`: there, three consecutive page
failures back off `2 ** 1` and `2 ** 2` seconds, record each failed batch,
then skip the cursor forward one full batch-width and reset the count, so
the loop terminates under sustained failure of every page (with at least
`3k + 1` iterations for a range of `k` batch-widths).
`BinanceConnector.fetch_ohlcv_range` has no such policy: a failing page
leaves its loop state unchanged, so under sustained failure its cursor
never advances. -/
theorem range_fetch_retry_policy :
    (∀ (tfMs batchSize cur : Int) (pages : List (List Int))
        (failed : List (Int × Nat)) (sleeps : List Nat),
      cbErrStep tfMs batchSize (cbErrStep tfMs batchSize (cbErrStep tfMs batchSize
          ⟨cur, 0, pages, failed, sleeps⟩)) =
        ⟨cur + tfMs * batchSize, 0, pages,
          failed ++ [(cur, 1), (cur, 2), (cur, 3)], sleeps ++ [2, 4]⟩) ∧
    (∀ (fetch : Int → PageResult) (endTs tfMs : Int) (fuel : Nat) (s : BinState),
      fetch s.cursor = PageResult.err → s.cursor < endTs →
      binanceLoop fetch endTs tfMs (fuel + 1) s = binanceLoop fetch endTs tfMs fuel s) ∧
    (∀ (endTs tfMs batchSize : Int) (k fuel : Nat) (s : CbState), s.retry = 0 →
      endTs ≤ s.cursor + (k : Int) * (tfMs * batchSize) → 3 * k + 1 ≤ fuel →
      (coinbaseLoop (fun _ => PageResult.err) endTs tfMs batchSize fuel s).2 = true) := by
  refine ⟨?_, binanceLoop_err_no_advance,
    fun endTs tfMs batchSize => coinbase_alwaysErr_terminates endTs tfMs batchSize⟩
  intro tfMs batchSize cur pages failed sleeps
  simp [cbErrStep]

/-- C4 witness: the amended statement evaluated at concrete inputs — the
triple error step at cursor 0, one failing Binance iteration, and a
Coinbase run over a two-batch range under sustained failure. -/
theorem range_fetch_retry_policy_witness :
    cbErrStep 60000 10 (cbErrStep 60000 10 (cbErrStep 60000 10 ⟨0, 0, [], [], []⟩)) =
      ⟨0 + 60000 * 10, 0, [], [] ++ [(0, 1), (0, 2), (0, 3)], [] ++ [2, 4]⟩ ∧
    binanceLoop (fun _ => PageResult.err) 1000000 60000 (5 + 1) ⟨0, []⟩ =
      binanceLoop (fun _ => PageResult.err) 1000000 60000 5 ⟨0, []⟩ ∧
    (coinbaseLoop (fun _ => PageResult.err) 1000000 60000 10 7 ⟨0, 0, [], [], []⟩).2 =
      true :=
  ⟨range_fetch_retry_policy.1 60000 10 0 [] [] [],
    range_fetch_retry_policy.2.1 (fun _ => PageResult.err) 1000000 60000 5 ⟨0, []⟩
      rfl (by decide),
    range_fetch_retry_policy.2.2 1000000 60000 10 2 7 ⟨0, 0, [], [], []⟩
      rfl (by decide) (by decide)⟩

/-- C7 counterexample: a successful Binance fetch converts its timestamps
without `utc=True` — they are timezone-naive, not UTC-normalized — and
both connectors cast the numeric OHLCV columns with `astype(float)`, a
float64 cast, not a fixed-precision decimal type. -/
theorem fetch_normalize_float_counterexample :
    (binanceNormalize "BTC/USDT" "1m" [⟨0, 1, 2, 1, 2, 3⟩]).tsUtcAware = false ∧
    (binanceNormalize "BTC/USDT" "1m" [⟨0, 1, 2, 1, 2, 3⟩]).numRepr =
      NumRepr.floatRepr ∧
    (coinbaseNormalize "BTC/USD" "1m" [⟨0, 1, 2, 1, 2, 3⟩]).numRepr =
      NumRepr.floatRepr ∧
    NumRepr.floatRepr ≠ NumRepr.decimalRepr :=
  ⟨rfl, rfl, rfl, by decide⟩

/-- C7 amended: on every successful fetch, Coinbase's normalization
attaches UTC to the converted timestamps while Binance's leaves them
timezone-naive (the epoch-ms instants themselves are preserved by both),
and both connectors cast the numeric OHLCV columns to float64, not to a
fixed-precision decimal type (the decimal representation only appears at
the storage layer's DECIMAL columns). -/
theorem fetch_normalize_repr (symbol timeframe : String) (raw : List RawCandle) :
    (coinbaseNormalize symbol timeframe raw).tsUtcAware = true ∧
    (binanceNormalize symbol timeframe raw).tsUtcAware = false ∧
    (binanceNormalize symbol timeframe raw).numRepr = NumRepr.floatRepr ∧
    (coinbaseNormalize symbol timeframe raw).numRepr = NumRepr.floatRepr ∧
    (binanceNormalize symbol timeframe raw).timestamps = raw.map RawCandle.ts ∧
    (coinbaseNormalize symbol timeframe raw).timestamps = raw.map RawCandle.ts :=
  ⟨rfl, rfl, rfl, rfl, rfl, rfl⟩

/-- Updating a partition stores the new state at its key. -/
theorem updateLake_self (lake : LakeFS) (k : Int × Int) (fs : PartFS) :
    updateLake lake k fs k = fs := if_pos rfl

/-- Updating a partition leaves every other partition untouched. -/
theorem updateLake_other (lake : LakeFS) (k : Int × Int) (fs : PartFS)
    (k2 : Int × Int) (h : k2 ≠ k) : updateLake lake k fs k2 = lake k2 := if_neg h

/-- The per-group loop of `write_partition` is atomic per partition: on
success every processed partition holds exactly its group's rows with no
temp file; on failure the raising partition's visible file is untouched
and its temp file removed while the error propagates; partitions outside
the key list are untouched. -/
theorem writePartitionGo_spec (df : List Row) (oc : Int × Int → WriteOutcome) :
    ∀ (ks : List (Int × Int)) (lake : LakeFS), ks.Nodup →
      (((writePartitionGo df oc lake ks).2 = Except.ok () →
        ∀ k ∈ ks, (writePartitionGo df oc lake ks).1 k =
          ⟨some (monthRows df k), none⟩) ∧
      (∀ e, (writePartitionGo df oc lake ks).2 = Except.error e →
        ∃ k ∈ ks, oc k ≠ WriteOutcome.okWrite ∧
          ((writePartitionGo df oc lake ks).1 k).visible = (lake k).visible ∧
          ((writePartitionGo df oc lake ks).1 k).tmp = none) ∧
      (∀ k, k ∉ ks → (writePartitionGo df oc lake ks).1 k = lake k)) := by
  intro ks
  induction ks with
  | nil =>
    intro lake _
    refine ⟨fun _ k hk => absurd hk (List.not_mem_nil k), fun e he => ?_, fun k _ => rfl⟩
    simp [writePartitionGo] at he
  | cons k0 rest ih =>
    intro lake hnd
    rw [List.nodup_cons] at hnd
    obtain ⟨hk0, hrest⟩ := hnd
    cases hoc : oc k0 with
    | okWrite =>
      have hgo : writePartitionGo df oc lake (k0 :: rest) =
          writePartitionGo df oc
            (updateLake lake k0 ⟨some (monthRows df k0), none⟩) rest := by
        simp only [writePartitionGo, writeOnePartition, hoc]
      obtain ⟨ihok, iherr, ihun⟩ :=
        ih (updateLake lake k0 ⟨some (monthRows df k0), none⟩) hrest
      rw [hgo]
      refine ⟨?_, ?_, ?_⟩
      · intro hres k hk
        rcases List.mem_cons.mp hk with h | h
        · subst h
          rw [ihun k hk0]
          exact updateLake_self lake k ⟨some (monthRows df k), none⟩
        · exact ihok hres k h
      · intro e he
        obtain ⟨k, hkmem, hknotok, hvis, htmp⟩ := iherr e he
        refine ⟨k, List.mem_cons_of_mem k0 hkmem, hknotok, ?_, htmp⟩
        rw [hvis, updateLake_other lake k0 _ k fun h => hk0 (h ▸ hkmem)]
      · intro k hk
        rw [List.mem_cons, not_or] at hk
        rw [ihun k hk.2, updateLake_other lake k0 _ k hk.1]
    | failDuringWrite =>
      have hgo : writePartitionGo df oc lake (k0 :: rest) =
          (updateLake lake k0 ⟨(lake k0).visible, none⟩,
            Except.error "parquet write failed") := by
        simp only [writePartitionGo, writeOnePartition, hoc]
      rw [hgo]
      refine ⟨fun hres => absurd hres (by simp), fun e _ => ?_, fun k hk => ?_⟩
      · exact ⟨k0, List.mem_cons_self k0 rest, by simp [hoc],
          by simp [updateLake], by simp [updateLake]⟩
      · rw [List.mem_cons, not_or] at hk
        exact updateLake_other lake k0 _ k hk.1
    | failAtRename =>
      have hgo : writePartitionGo df oc lake (k0 :: rest) =
          (updateLake lake k0 ⟨(lake k0).visible, none⟩,
            Except.error "rename failed") := by
        simp only [writePartitionGo, writeOnePartition, hoc]
      rw [hgo]
      refine ⟨fun hres => absurd hres (by simp), fun e _ => ?_, fun k hk => ?_⟩
      · exact ⟨k0, List.mem_cons_self k0 rest, by simp [hoc],
          by simp [updateLake], by simp [updateLake]⟩
      · rw [List.mem_cons, not_or] at hk
        exact updateLake_other lake k0 _ k hk.1

/-- The month keys of a batch are pairwise distinct (and disjoint from the
seen-set). -/
theorem monthKeysGo_nodup (df : List Row) : ∀ seen,
    (monthKeysGo seen df).Nodup ∧ ∀ k ∈ monthKeysGo seen df, k ∉ seen := by
  induction df with
  | nil => intro seen; exact ⟨List.nodup_nil, by simp [monthKeysGo]⟩
  | cons r rest ih =>
    intro seen
    unfold monthKeysGo
    by_cases hr : yearMonthOf r.timestamp ∈ seen
    · rw [if_pos hr]
      exact ih seen
    · rw [if_neg hr]
      obtain ⟨ihnd, ihseen⟩ := ih (yearMonthOf r.timestamp :: seen)
      constructor
      · exact List.nodup_cons.mpr ⟨fun hmem => (ihseen _ hmem) (by simp), ihnd⟩
      · intro k hk
        rcases List.mem_cons.mp hk with h | h
        · exact h ▸ hr
        · exact fun hs => ihseen k h (List.mem_cons_of_mem _ hs)

/-- The month keys of a batch are pairwise distinct. -/
theorem monthKeys_nodup (df : List Row) : (monthKeys df).Nodup :=
  (monthKeysGo_nodup df []).1

/-- C8: `write_partition` is atomic per partition: on success every
month-partition of the batch holds exactly its group's rows with the temp
file gone; on failure the error propagates, the raising partition's
previously visible file is unchanged and its temp file is removed; and
partitions outside the batch are never touched. -/
theorem write_partition_atomic (lake : LakeFS) (df : List Row)
    (oc : Int × Int → WriteOutcome) :
    ((write_partition lake df oc).2 = Except.ok () →
      ∀ k ∈ monthKeys df, (write_partition lake df oc).1 k =
        ⟨some (monthRows df k), none⟩) ∧
    (∀ e, (write_partition lake df oc).2 = Except.error e →
      ∃ k ∈ monthKeys df, oc k ≠ WriteOutcome.okWrite ∧
        ((write_partition lake df oc).1 k).visible = (lake k).visible ∧
        ((write_partition lake df oc).1 k).tmp = none) ∧
    (∀ k, k ∉ monthKeys df → (write_partition lake df oc).1 k = lake k) := by
  by_cases hdf : df.isEmpty
  · have hnil : df = [] := List.isEmpty_iff.mp hdf
    subst hnil
    refine ⟨fun _ k hk => ?_, fun e he => ?_, fun k _ => rfl⟩
    · simp [monthKeys, monthKeysGo] at hk
    · simp [write_partition] at he
  · have hgo : write_partition lake df oc = writePartitionGo df oc lake (monthKeys df) := by
      simp [write_partition, hdf]
    rw [hgo]
    exact writePartitionGo_spec df oc (monthKeys df) lake (monthKeys_nodup df)

/-- C8 witness: a one-row batch (January 1970) written into an empty lake
through a failing write: the error propagates, the partition's visible
file stays absent and no temp file is left. -/
theorem write_partition_atomic_witness :
    ∃ k ∈ monthKeys [metaExampleRow1],
      (fun _ => WriteOutcome.failDuringWrite : Int × Int → WriteOutcome) k ≠
        WriteOutcome.okWrite ∧
      ((write_partition (fun _ => ⟨none, none⟩) [metaExampleRow1]
          (fun _ => WriteOutcome.failDuringWrite)).1 k).visible =
        ((fun _ => ⟨none, none⟩ : LakeFS) k).visible ∧
      ((write_partition (fun _ => ⟨none, none⟩) [metaExampleRow1]
          (fun _ => WriteOutcome.failDuringWrite)).1 k).tmp = none :=
  (write_partition_atomic (fun _ => ⟨none, none⟩) [metaExampleRow1]
    (fun _ => WriteOutcome.failDuringWrite)).2.1 "parquet write failed" rfl

/-- C10: the stored subscription list of `BinanceWebSocket` only grows:
`subscribe` appends unconditionally, every reconnect with a nonempty list
re-subscribes with the list itself and thereby doubles its length, the
list is not kept duplicate-free (every channel's multiplicity doubles on
reconnect), and no operation ever removes a channel. -/
theorem ws_subscriptions_growth :
    (∀ subs : List String, subs ≠ [] →
      on_connect subs = subs ++ subs ∧ (on_connect subs).length = 2 * subs.length) ∧
    (∀ (subs : List String) (ch : String), subs ≠ [] →
      (on_connect subs).count ch = 2 * subs.count ch) ∧
    (∀ (subs : List String) (op : WsOp) (ch : String),
      subs.count ch ≤ (applyWsOp subs op).count ch) := by
  refine ⟨fun subs hne => ?_, fun subs ch hne => ?_, fun subs op ch => ?_⟩
  · have h : on_connect subs = subs ++ subs := by
      simp [on_connect, subscribe, hne]
    exact ⟨h, by rw [h, List.length_append]; ring⟩
  · have h : on_connect subs = subs ++ subs := by
      simp [on_connect, subscribe, hne]
    rw [h, List.count_append]
    ring
  · cases op with
    | subscribeOp channels => simp [applyWsOp, subscribe, List.count_append]
    | subscribeKlines symbol timeframes => simp [applyWsOp, subscribe, List.count_append]
    | subscribeTicker symbol => simp [applyWsOp, subscribe, List.count_append]
    | subscribeDepth symbol speed => simp [applyWsOp, subscribe, List.count_append]
    | onConnect =>
      by_cases hne : subs.isEmpty
      · simp [applyWsOp, on_connect, hne]
      · simp [applyWsOp, on_connect, hne, subscribe, List.count_append]

/-- C10 witness: a singleton subscription list doubles on reconnect. -/
theorem ws_subscriptions_growth_witness :
    on_connect ["btcusdt@ticker"] = ["btcusdt@ticker"] ++ ["btcusdt@ticker"] ∧
    (on_connect ["btcusdt@ticker"]).length = 2 * (["btcusdt@ticker"] : List String).length :=
  ws_subscriptions_growth.1 ["btcusdt@ticker"] (by simp)

end Quant
